import Mathlib

/-!
Shallow embedding of `upload_to_dropbox.py` (repository Mownick/new-spl).

The script maintains a single master tar archive in Dropbox: for each input
file it fetches the current master, merges the file in (deduplicating members
by base name), and uploads the result, using a chunked upload session for
files larger than 4 MiB.

The embedding has three views of the source, each faithful to the code it
models:
* a byte-level trace model of `upload_to_dropbox` (the chunk loop, lines
  37-71), recording the remote calls made: single-shot upload, session
  start, session append (with the cursor offset passed), session finish;
* a member-level model of `update_master_tar` (lines 81-112): a tar is a
  compression tag plus a list of (name, bytes) members; extraction into a
  scratch directory, removal of the colliding name, copy of the new file and
  re-pack mirror the source statements one by one;
* an orchestrator model of `main` / `process_archive` / `download_from_dropbox`
  (lines 22-35, 73-79, 114-144): Python strings are lists of characters,
  remote behaviour per cycle is an environment parameter, and the model
  tracks the set of local temp files and the trace of remote calls.
-/

/-- `CHUNK_SIZE = 4 * 1024 * 1024` from line 39 of the source. -/
def CHUNK_SIZE : Nat := 4 * 1024 * 1024

/-- One remote call made by `upload_to_dropbox`: the payload length in bytes
and, for append/finish, the `cursor.offset` value passed with the call. -/
inductive UploadEvent where
  | singleShot (len : Nat)
  | sessionStart (len : Nat)
  | sessionAppend (len : Nat) (offset : Nat)
  | sessionFinish (len : Nat) (offset : Nat)
deriving DecidableEq, Repr

/-- Payload length of an upload call (the number of bytes `f.read` returned
for that call). -/
def eventChunk : UploadEvent → Nat
  | .singleShot n => n
  | .sessionStart n => n
  | .sessionAppend n _ => n
  | .sessionFinish n _ => n

/-- The `cursor.offset` passed with a call, when the call carries a cursor. -/
def eventOffset : UploadEvent → Option Nat
  | .singleShot _ => none
  | .sessionStart _ => none
  | .sessionAppend _ o => some o
  | .sessionFinish _ o => some o

/-- Total number of bytes consumed from the source stream by a list of calls. -/
def chunkSum (l : List UploadEvent) : Nat := (l.map eventChunk).sum

def isAppend : UploadEvent → Bool
  | .sessionAppend _ _ => true
  | _ => false

def isFinish : UploadEvent → Bool
  | .sessionFinish _ _ => true
  | _ => false

/-- Number of `files_upload_session_append_v2` calls in a trace. -/
def appendCount (l : List UploadEvent) : Nat := (l.filter isAppend).length

/-- The cursor offsets carried by a trace, in call order. -/
def offsetList (l : List UploadEvent) : List Nat := l.filterMap eventOffset

/-- The `while f.tell() < file_size` loop of `upload_to_dropbox`
(lines 60-66).  `pos` models `f.tell()` and `cursorOff` models
`cursor.offset`.  Each iteration either finishes the session with the
remaining `file_size - pos` bytes (when at most `CHUNK_SIZE` remain,
line 61-62) or appends a full chunk and then sets `cursor.offset = f.tell()`
(lines 64-65). -/
def sessionEvents (fileSize pos cursorOff : Nat) : List UploadEvent :=
  if h : pos < fileSize then
    if fileSize - pos ≤ CHUNK_SIZE then
      [UploadEvent.sessionFinish (fileSize - pos) cursorOff]
    else
      UploadEvent.sessionAppend CHUNK_SIZE cursorOff ::
        sessionEvents fileSize (pos + CHUNK_SIZE) (pos + CHUNK_SIZE)
  else
    []
termination_by fileSize - pos
decreasing_by
  have hC : 0 < CHUNK_SIZE := by norm_num [CHUNK_SIZE]
  omega

/-- The remote calls `upload_to_dropbox` makes for a file of `fileSize`
bytes (lines 44-66): a single `files_upload` when the size is at most
`CHUNK_SIZE`, otherwise `files_upload_session_start` on the first chunk
(after which `f.tell()` and `cursor.offset` are both `CHUNK_SIZE`) followed
by the append/finish loop. -/
def uploadEvents (fileSize : Nat) : List UploadEvent :=
  if fileSize ≤ CHUNK_SIZE then
    [UploadEvent.singleShot fileSize]
  else
    UploadEvent.sessionStart CHUNK_SIZE ::
      sessionEvents fileSize CHUNK_SIZE CHUNK_SIZE

/-- `offsetsOk r l` states that, starting from `r` bytes already consumed
from the source stream, every call in `l` that carries a cursor offset
carries exactly the number of bytes read from the stream before that call's
chunk was read. -/
def offsetsOk : Nat → List UploadEvent → Prop
  | _, [] => True
  | r, e :: rest =>
      (∀ o, eventOffset e = some o → o = r) ∧ offsetsOk (r + eventChunk e) rest

/-! ### Python strings and paths

Python strings are modelled as lists of characters so that `strip`,
`split` and `endswith` are plain structural recursions. -/

/-- A Python string. -/
abbrev PyStr := List Char

/-- Python `str.split(sep)` for a one-character separator. -/
def pySplit (sep : Char) : PyStr → List PyStr
  | [] => [[]]
  | c :: rest =>
    match pySplit sep rest with
    | [] => [[c]]
    | h :: t => if c = sep then [] :: h :: t else (c :: h) :: t

/-- Python `str.strip()`: drop leading and trailing whitespace. -/
def pyStrip (s : PyStr) : PyStr :=
  ((s.dropWhile Char.isWhitespace).reverse.dropWhile Char.isWhitespace).reverse

/-- Python `str.endswith(suffix)`. -/
def pyEndsWith (s suf : PyStr) : Bool :=
  decide (s.reverse.take suf.length = suf.reverse)

/-- `os.path.basename`: the part of the path after the last `/`. -/
def basename (p : PyStr) : PyStr := (pySplit '/' p).getLastD []

/-- The suffix check of `process_archive` (line 75):
`file_path.endswith(('.tar.gz', '.tgz', '.tar'))`. -/
def suffixOk (p : PyStr) : Bool :=
  pyEndsWith p (".tar.gz".toList) ||
  pyEndsWith p (".tgz".toList) ||
  pyEndsWith p (".tar".toList)

/-! ### The tar merge model (`update_master_tar`) -/

/-- File contents as a list of bytes. -/
abbrev Bytes := List Nat

/-- Compression variants a tar file on disk may use; `tarfile.open(_, 'r:*')`
reads all of them transparently, `tarfile.open(_, 'w')` writes `plainNone`. -/
inductive Compression where
  | plainNone
  | gzip
  | bzip2
  | xz
deriving DecidableEq, Repr

/-- A tar file: its on-disk compression and its member list in archive
order.  A member is a (name, content) pair. -/
structure TarFile where
  compression : Compression
  members : List (PyStr × Bytes)
deriving DecidableEq, Repr

/-- The member names of a directory listing / member list. -/
def keys (l : List (PyStr × Bytes)) : List PyStr := l.map Prod.fst

/-- Writing one file into a scratch directory: overwrite the entry with the
same name if present, otherwise append a new entry. -/
def dirInsert : List (PyStr × Bytes) → PyStr → Bytes → List (PyStr × Bytes)
  | [], n, c => [(n, c)]
  | (m, b) :: rest, n, c =>
      if m = n then (m, c) :: rest else (m, b) :: dirInsert rest n c

/-- `tar.extractall(path=tmpdir)` (line 96): write every member into the
scratch directory in archive order; a later member with the same name
overwrites the earlier file. -/
def extractAll (ms : List (PyStr × Bytes)) : List (PyStr × Bytes) :=
  ms.foldl (fun d p => dirInsert d p.1 p.2) []

/-- `if os.path.exists(target): os.remove(target)` (lines 100-101): the
directory after deleting the file named `n`, a no-op when absent. -/
def dirRemove (d : List (PyStr × Bytes)) (n : PyStr) : List (PyStr × Bytes) :=
  d.filter (fun p => decide (p.1 ≠ n))

/-- `update_master_tar(master_tar_path, new_file_path, dropbox_path)`
(lines 81-112).  `master` is `none` when no master archive was downloaded.
With no master, a fresh tar with the single member
`(basename new_file_path, content)` is written with mode `'w'` (lines 86-90).
Otherwise the master is opened with `'r:*'` (any compression) and fully
extracted, the entry matching the new base name is removed, the new file is
copied in, and the directory is re-packed with mode `'w'` (lines 93-112). -/
def update_master_tar (master : Option TarFile) (new_file_path : PyStr)
    (content : Bytes) : TarFile :=
  match master with
  | none => ⟨Compression.plainNone, [(basename new_file_path, content)]⟩
  | some t =>
      let dir0 := extractAll t.members
      let dir1 := dirRemove dir0 (basename new_file_path)
      let dir2 := dirInsert dir1 (basename new_file_path) content
      ⟨Compression.plainNone, dir2⟩

/-! ### The fetch and orchestrator model -/

/-- The remote store's response to one `files_download_to_file` call. -/
inductive FetchOutcome where
  | found (b : Bytes)
  | pathNotFound
  | pathOther
  | otherApiErr
deriving DecidableEq, Repr

/-- `download_from_dropbox` (lines 22-35): `Except.error code` models
`sys.exit(code)`, `Except.ok none` models the `return None` taken when the
ApiError is a path error whose reason is not-found, `Except.ok (some b)`
models a successful download. -/
def download_from_dropbox : FetchOutcome → Except Nat (Option Bytes)
  | .found b => .ok (some b)
  | .pathNotFound => .ok none
  | .pathOther => .error 1
  | .otherApiErr => .error 1

/-- A remote call made by the orchestrator. -/
inductive Event where
  | authCall
  | downloadCall
  | uploadCall
deriving DecidableEq, Repr

/-- The remote behaviour one per-file cycle will observe. -/
structure FileEnv where
  fetch : FetchOutcome
  uploadOk : Bool
deriving DecidableEq, Repr

/-- Local temp files currently existing (by name) and the remote calls made
so far, in order. -/
structure RunState where
  files : List PyStr
  trace : List Event
deriving DecidableEq, Repr

/-- Create a file (no duplicate names in a directory). -/
def addFile (fs : List PyStr) (n : PyStr) : List PyStr :=
  if n ∈ fs then fs else fs ++ [n]

/-- `os.remove`. -/
def delFile (fs : List PyStr) (n : PyStr) : List PyStr :=
  fs.filter (fun m => decide (m ≠ n))

/-- The local path `download_from_dropbox` writes to (line 24):
`tempfile.gettempdir()/basename(dropbox_path)`; only the base name is
tracked. -/
def masterLocalName (d : PyStr) : PyStr := basename d

/-- The output path of `update_master_tar` (line 83):
`tempfile.gettempdir()/temp_<basename(dropbox_path)>`. -/
def tempTarName (d : PyStr) : PyStr := "temp_".toList ++ basename d

/-- One iteration of the `for file_path in changed_files.split(',')` loop of
`main` (lines 129-144), for an already-stripped non-blank path `p`:
validation (`process_archive`), fetch (`download_from_dropbox`, which first
creates the local file with `open(local_path, "wb")` and then issues the
remote call), merge (`update_master_tar`, creating the temp tar), upload,
and the cleanup loop (lines 141-144) which removes `master_path` (when not
`None`) and `updated_path`.  `sys.exit(1)` anywhere ends the run with the
files existing at that moment.  Returns the state after the cycle and
`some code` when the process exited. -/
def runCycle (d : PyStr) (e : FileEnv) (s : RunState) (p : PyStr) :
    RunState × Option Nat :=
  if suffixOk p then
    let s1 : RunState :=
      ⟨addFile s.files (masterLocalName d), s.trace ++ [Event.downloadCall]⟩
    match e.fetch with
    | .pathOther => (s1, some 1)
    | .otherApiErr => (s1, some 1)
    | .pathNotFound =>
        let s2 : RunState :=
          ⟨addFile s1.files (tempTarName d), s1.trace ++ [Event.uploadCall]⟩
        if e.uploadOk then
          (⟨delFile s2.files (tempTarName d), s2.trace⟩, none)
        else
          (s2, some 1)
    | .found _ =>
        let s2 : RunState :=
          ⟨addFile s1.files (tempTarName d), s1.trace ++ [Event.uploadCall]⟩
        if e.uploadOk then
          (⟨delFile (delFile s2.files (masterLocalName d)) (tempTarName d),
            s2.trace⟩, none)
        else
          (s2, some 1)
  else
    (s, some 1)

/-- The loop of `main` over the split input list (lines 122-144): blank
entries are skipped without consuming a remote environment; a cycle that
exits ends the run. -/
def runFiles (d : PyStr) (envs : Nat → FileEnv) :
    List PyStr → Nat → RunState → RunState × Option Nat
  | [], _, s => (s, none)
  | p :: rest, k, s =>
      if pyStrip p = [] then
        runFiles d envs rest k s
      else
        match h : runCycle d (envs k) s (pyStrip p) with
        | (s2, some code) => (s2, some code)
        | (s2, none) => runFiles d envs rest (k + 1) s2

/-- `main(changed_files, dropbox_path)` (lines 114-144): missing token exits
1 before any remote call; `initialize_dropbox` makes the auth remote call
(`users_get_current_account`) and exits 1 on `AuthError`; then the per-file
loop runs.  Returns the final local-file/trace state and the process exit
code (0 when the loop completes). -/
def runMain (tokenPresent authOk : Bool) (dropboxPath changedFiles : PyStr)
    (envs : Nat → FileEnv) : RunState × Nat :=
  if tokenPresent = false then
    (⟨[], []⟩, 1)
  else
    let s0 : RunState := ⟨[], [Event.authCall]⟩
    if authOk = false then
      (s0, 1)
    else
      match runFiles dropboxPath envs (pySplit ',' changedFiles) 0 s0 with
      | (s, none) => (s, 0)
      | (s, some c) => (s, c)

/-! ### Lemmas about the chunked-upload trace -/

theorem chunkSize_pos : 0 < CHUNK_SIZE := by norm_num [CHUNK_SIZE]

theorem chunkSum_cons (e : UploadEvent) (l : List UploadEvent) :
    chunkSum (e :: l) = eventChunk e + chunkSum l := by
  simp [chunkSum]

theorem appendCount_cons_append (n o : Nat) (l : List UploadEvent) :
    appendCount (UploadEvent.sessionAppend n o :: l) = appendCount l + 1 := by
  simp [appendCount, isAppend]

theorem appendCount_cons_finish (n o : Nat) (l : List UploadEvent) :
    appendCount (UploadEvent.sessionFinish n o :: l) = appendCount l := by
  simp [appendCount, isAppend]

theorem appendCount_cons_start (n : Nat) (l : List UploadEvent) :
    appendCount (UploadEvent.sessionStart n :: l) = appendCount l := by
  simp [appendCount, isAppend]

/-- Bytes consumed by the loop: entered at `pos` with `pos < fs`, the loop
reads exactly the remaining `fs - pos` bytes. -/
theorem sess_sum (fs : Nat) :
    ∀ n pos, fs - pos ≤ n → pos < fs →
      pos + chunkSum (sessionEvents fs pos pos) = fs := by
  intro n
  induction n with
  | zero => intro pos hb hpos; omega
  | succ n ih =>
    intro pos hb hpos
    have hC : 0 < CHUNK_SIZE := chunkSize_pos
    rw [sessionEvents, dif_pos hpos]
    by_cases hle : fs - pos ≤ CHUNK_SIZE
    · rw [if_pos hle]
      have hcs : chunkSum [UploadEvent.sessionFinish (fs - pos) pos]
          = fs - pos := by
        simp [chunkSum, eventChunk]
      omega
    · rw [if_neg hle]
      have hpos2 : pos + CHUNK_SIZE < fs := by omega
      have hb2 : fs - (pos + CHUNK_SIZE) ≤ n := by omega
      have ih1 := ih (pos + CHUNK_SIZE) hb2 hpos2
      rw [chunkSum_cons]
      simp only [eventChunk]
      omega

/-- Unfolding lemma for `offsetsOk` on a nonempty trace. -/
theorem offsetsOk_cons (r : Nat) (e : UploadEvent) (l : List UploadEvent) :
    offsetsOk r (e :: l)
      ↔ (∀ o, eventOffset e = some o → o = r)
          ∧ offsetsOk (r + eventChunk e) l :=
  Iff.rfl

theorem offsetsOk_nil (r : Nat) : offsetsOk r [] := trivial

/-- Every cursor offset the loop passes equals the bytes read from the
stream before that call's chunk. -/
theorem sess_offsets (fs : Nat) :
    ∀ n pos, fs - pos ≤ n → pos < fs →
      offsetsOk pos (sessionEvents fs pos pos) := by
  intro n
  induction n with
  | zero => intro pos hb hpos; omega
  | succ n ih =>
    intro pos hb hpos
    have hC : 0 < CHUNK_SIZE := chunkSize_pos
    rw [sessionEvents, dif_pos hpos]
    by_cases hle : fs - pos ≤ CHUNK_SIZE
    · rw [if_pos hle, offsetsOk_cons]
      refine ⟨?_, offsetsOk_nil _⟩
      intro o ho
      simp only [eventOffset, Option.some.injEq] at ho
      omega
    · rw [if_neg hle, offsetsOk_cons]
      have hpos2 : pos + CHUNK_SIZE < fs := by omega
      have hb2 : fs - (pos + CHUNK_SIZE) ≤ n := by omega
      refine ⟨?_, ?_⟩
      · intro o ho
        simp only [eventOffset, Option.some.injEq] at ho
        omega
      · simpa only [eventChunk] using ih (pos + CHUNK_SIZE) hb2 hpos2

/-- Every call the loop makes carries at least one byte of payload. -/
theorem sess_chunks_pos (fs : Nat) :
    ∀ n pos, fs - pos ≤ n → pos < fs →
      ∀ e ∈ sessionEvents fs pos pos, 0 < eventChunk e := by
  intro n
  induction n with
  | zero => intro pos hb hpos; omega
  | succ n ih =>
    intro pos hb hpos
    have hC : 0 < CHUNK_SIZE := chunkSize_pos
    rw [sessionEvents, dif_pos hpos]
    by_cases hle : fs - pos ≤ CHUNK_SIZE
    · rw [if_pos hle]
      intro e he
      rcases List.mem_singleton.mp he with rfl
      simp only [eventChunk]
      omega
    · rw [if_neg hle]
      have hpos2 : pos + CHUNK_SIZE < fs := by omega
      have hb2 : fs - (pos + CHUNK_SIZE) ≤ n := by omega
      intro e he
      rcases List.mem_cons.mp he with rfl | hm
      · simpa only [eventChunk] using hC
      · exact ih (pos + CHUNK_SIZE) hb2 hpos2 e hm

/-- The loop issues exactly `(fs - pos - 1) / CHUNK_SIZE` append calls:
one for every full chunk strictly before the final (at most chunk-sized)
payload handed to session-finish. -/
theorem sess_count (fs : Nat) :
    ∀ n pos, fs - pos ≤ n → pos < fs →
      appendCount (sessionEvents fs pos pos) = (fs - pos - 1) / CHUNK_SIZE := by
  intro n
  induction n with
  | zero => intro pos hb hpos; omega
  | succ n ih =>
    intro pos hb hpos
    have hC : 0 < CHUNK_SIZE := chunkSize_pos
    rw [sessionEvents, dif_pos hpos]
    by_cases hle : fs - pos ≤ CHUNK_SIZE
    · rw [if_pos hle]
      rw [appendCount_cons_finish]
      have h1 : fs - pos - 1 < CHUNK_SIZE := by omega
      simp [appendCount, Nat.div_eq_of_lt h1]
    · rw [if_neg hle]
      have hpos2 : pos + CHUNK_SIZE < fs := by omega
      have hb2 : fs - (pos + CHUNK_SIZE) ≤ n := by omega
      rw [appendCount_cons_append, ih (pos + CHUNK_SIZE) hb2 hpos2]
      have key : (fs - pos - 1) / CHUNK_SIZE
          = (fs - pos - 1 - CHUNK_SIZE) / CHUNK_SIZE + 1 := by
        rw [Nat.div_eq_sub_div hC (by omega)]
      have e1 : fs - pos - 1 - CHUNK_SIZE = fs - (pos + CHUNK_SIZE) - 1 := by
        omega
      rw [key, e1]

/-- The loop makes exactly one session-finish call; its payload is the
remaining `fs - o` bytes, where `o ∈ [pos, fs)` is the cursor value at the
finish call, and that payload is at most one chunk. -/
theorem sess_finish (fs : Nat) :
    ∀ n pos, fs - pos ≤ n → pos < fs →
      ∃ o, (sessionEvents fs pos pos).filter isFinish
              = [UploadEvent.sessionFinish (fs - o) o]
          ∧ pos ≤ o ∧ o < fs ∧ fs - o ≤ CHUNK_SIZE := by
  intro n
  induction n with
  | zero => intro pos hb hpos; omega
  | succ n ih =>
    intro pos hb hpos
    have hC : 0 < CHUNK_SIZE := chunkSize_pos
    rw [sessionEvents, dif_pos hpos]
    by_cases hle : fs - pos ≤ CHUNK_SIZE
    · rw [if_pos hle]
      exact ⟨pos, by simp [isFinish], le_refl pos, hpos, hle⟩
    · rw [if_neg hle]
      have hpos2 : pos + CHUNK_SIZE < fs := by omega
      have hb2 : fs - (pos + CHUNK_SIZE) ≤ n := by omega
      obtain ⟨o, ho1, ho2, ho3, ho4⟩ := ih (pos + CHUNK_SIZE) hb2 hpos2
      refine ⟨o, ?_, by omega, ho3, ho4⟩
      simpa [isFinish] using ho1

theorem uploadEvents_large (fs : Nat) (h : CHUNK_SIZE < fs) :
    uploadEvents fs
      = UploadEvent.sessionStart CHUNK_SIZE ::
          sessionEvents fs CHUNK_SIZE CHUNK_SIZE := by
  rw [uploadEvents, if_neg (by omega)]

theorem appendCount_uploadEvents (fs : Nat) (h : CHUNK_SIZE < fs) :
    appendCount (uploadEvents fs) = (fs - CHUNK_SIZE - 1) / CHUNK_SIZE := by
  rw [uploadEvents_large fs h, appendCount_cons_start]
  exact sess_count fs (fs - CHUNK_SIZE) CHUNK_SIZE le_rfl h

theorem chunkSum_uploadEvents (fs : Nat) (h : CHUNK_SIZE < fs) :
    chunkSum (uploadEvents fs) = fs := by
  rw [uploadEvents_large fs h, chunkSum_cons]
  have hs := sess_sum fs (fs - CHUNK_SIZE) CHUNK_SIZE le_rfl h
  simp only [eventChunk]
  omega

theorem offsetsOk_uploadEvents (fs : Nat) (h : CHUNK_SIZE < fs) :
    offsetsOk 0 (uploadEvents fs) := by
  rw [uploadEvents_large fs h, offsetsOk_cons]
  refine ⟨?_, ?_⟩
  · intro o ho
    simp [eventOffset] at ho
  · simpa only [eventChunk, Nat.zero_add]
      using sess_offsets fs (fs - CHUNK_SIZE) CHUNK_SIZE le_rfl h

theorem chunks_pos_uploadEvents (fs : Nat) (h : CHUNK_SIZE < fs) :
    ∀ e ∈ uploadEvents fs, 0 < eventChunk e := by
  rw [uploadEvents_large fs h]
  intro e he
  rcases List.mem_cons.mp he with rfl | hm
  · simpa only [eventChunk] using chunkSize_pos
  · exact sess_chunks_pos fs (fs - CHUNK_SIZE) CHUNK_SIZE le_rfl h e hm

theorem finish_uploadEvents (fs : Nat) (h : CHUNK_SIZE < fs) :
    ∃ o, (uploadEvents fs).filter isFinish
            = [UploadEvent.sessionFinish (fs - o) o]
        ∧ CHUNK_SIZE ≤ o ∧ o < fs ∧ fs - o ≤ CHUNK_SIZE := by
  obtain ⟨o, ho1, ho2, ho3, ho4⟩ :=
    sess_finish fs (fs - CHUNK_SIZE) CHUNK_SIZE le_rfl h
  refine ⟨o, ?_, ho2, ho3, ho4⟩
  rw [uploadEvents_large fs h]
  simpa [isFinish] using ho1

theorem offsetList_cons_none (e : UploadEvent) (l : List UploadEvent)
    (h : eventOffset e = none) : offsetList (e :: l) = offsetList l := by
  simp [offsetList, List.filterMap_cons, h]

theorem offsetList_cons_some (e : UploadEvent) (l : List UploadEvent)
    (o : Nat) (h : eventOffset e = some o) :
    offsetList (e :: l) = o :: offsetList l := by
  simp [offsetList, List.filterMap_cons, h]

/-- Lower bound: a trace whose offsets are consistent starting at `r` only
carries offsets at least `r`. -/
theorem offsetsOk_lb :
    ∀ l : List UploadEvent, ∀ r, offsetsOk r l →
      ∀ o ∈ offsetList l, r ≤ o := by
  intro l
  induction l with
  | nil => intro r hok o ho; simp [offsetList] at ho
  | cons e t ih =>
    intro r hok o ho
    obtain ⟨h1, h2⟩ := (offsetsOk_cons r e t).mp hok
    rcases he : eventOffset e with _ | o2
    · rw [offsetList_cons_none e t he] at ho
      have := ih (r + eventChunk e) h2 o ho
      omega
    · rw [offsetList_cons_some e t o2 he] at ho
      rcases List.mem_cons.mp ho with rfl | hm
      · exact le_of_eq (h1 o he).symm
      · have := ih (r + eventChunk e) h2 o hm
        omega

/-- A trace with consistent offsets and strictly positive payloads carries
strictly increasing offsets. -/
theorem offsetsOk_pairwise :
    ∀ l : List UploadEvent, ∀ r, offsetsOk r l →
      (∀ e ∈ l, 0 < eventChunk e) →
      List.Pairwise (fun a b => a < b) (offsetList l) := by
  intro l
  induction l with
  | nil => intro r hok hpos; simp [offsetList]
  | cons e t ih =>
    intro r hok hpos
    obtain ⟨h1, h2⟩ := (offsetsOk_cons r e t).mp hok
    have hpt : ∀ x ∈ t, 0 < eventChunk x := fun x hx =>
      hpos x (List.mem_cons_of_mem e hx)
    rcases he : eventOffset e with _ | o2
    · rw [offsetList_cons_none e t he]
      exact ih (r + eventChunk e) h2 hpt
    · rw [offsetList_cons_some e t o2 he]
      refine List.Pairwise.cons ?_ (ih (r + eventChunk e) h2 hpt)
      intro b hb
      have hge := offsetsOk_lb t (r + eventChunk e) h2 b hb
      have hpe : 0 < eventChunk e := hpos e (List.mem_cons_self e t)
      have ho2 : o2 = r := h1 o2 he
      omega

/-! ### Lemmas about the tar merge -/

theorem dirInsert_not_mem (d : List (PyStr × Bytes)) (n : PyStr) (c : Bytes)
    (h : n ∉ keys d) : dirInsert d n c = d ++ [(n, c)] := by
  induction d with
  | nil => rfl
  | cons hd t ih =>
    obtain ⟨m, b⟩ := hd
    simp only [keys, List.map_cons, List.mem_cons] at h
    push_neg at h
    simp only [dirInsert]
    rw [if_neg (fun hmn => h.1 hmn.symm), ih (by simpa [keys] using h.2)]
    simp

theorem keys_dirInsert_mem (d : List (PyStr × Bytes)) (n : PyStr) (c : Bytes)
    (h : n ∈ keys d) : keys (dirInsert d n c) = keys d := by
  induction d with
  | nil => simp [keys] at h
  | cons hd t ih =>
    obtain ⟨m, b⟩ := hd
    simp only [dirInsert]
    by_cases hm : m = n
    · rw [if_pos hm]
      simp [keys]
    · rw [if_neg hm]
      have ht : n ∈ keys t := by
        simp only [keys, List.map_cons, List.mem_cons] at h
        rcases h with rfl | h2
        · exact absurd rfl hm
        · exact h2
      simp only [keys, List.map_cons] at ih ⊢
      rw [ih ht]

theorem keys_dirInsert_nodup (d : List (PyStr × Bytes)) (n : PyStr) (c : Bytes)
    (h : (keys d).Nodup) : (keys (dirInsert d n c)).Nodup := by
  by_cases hm : n ∈ keys d
  · rw [keys_dirInsert_mem d n c hm]
    exact h
  · rw [dirInsert_not_mem d n c hm]
    simp only [keys, List.map_append, List.map_cons, List.map_nil]
    rw [List.nodup_append]
    refine ⟨h, List.nodup_singleton n, ?_⟩
    intro a ha
    simp only [List.mem_singleton]
    intro han
    exact hm (by simpa [keys, han] using ha)

theorem foldl_dirInsert_nodup (ms : List (PyStr × Bytes)) :
    ∀ acc, (keys acc).Nodup →
      (keys (List.foldl (fun d p => dirInsert d p.1 p.2) acc ms)).Nodup := by
  induction ms with
  | nil => intro acc h; simpa using h
  | cons p t ih =>
    intro acc h
    simp only [List.foldl_cons]
    exact ih (dirInsert acc p.1 p.2) (keys_dirInsert_nodup acc p.1 p.2 h)

/-- The scratch directory after a full extraction never holds two files of
the same name, whatever the archive contained. -/
theorem extractAll_nodup (ms : List (PyStr × Bytes)) :
    (keys (extractAll ms)).Nodup :=
  foldl_dirInsert_nodup ms [] (by simp [keys])

theorem foldl_dirInsert_eq (ms : List (PyStr × Bytes)) :
    ∀ acc, (keys acc ++ keys ms).Nodup →
      List.foldl (fun d p => dirInsert d p.1 p.2) acc ms = acc ++ ms := by
  induction ms with
  | nil => intro acc h; simp
  | cons p t ih =>
    obtain ⟨n, c⟩ := p
    intro acc h
    simp only [List.foldl_cons]
    have hn : n ∉ keys acc := by
      intro hmem
      rw [List.nodup_append] at h
      exact h.2.2 hmem (by simp [keys])
    rw [dirInsert_not_mem acc n c hn]
    have h2 : (keys (acc ++ [(n, c)]) ++ keys t).Nodup := by
      simp only [keys, List.map_append, List.map_cons, List.map_nil,
        List.append_assoc, List.singleton_append] at h ⊢
      exact h
    rw [ih (acc ++ [(n, c)]) h2]
    simp

/-- Extracting an archive whose member names are unique reproduces exactly
its member list. -/
theorem extractAll_id (ms : List (PyStr × Bytes)) (h : (keys ms).Nodup) :
    extractAll ms = ms := by
  have := foldl_dirInsert_eq ms [] (by simpa [keys] using h)
  simpa [extractAll] using this

theorem keys_dirRemove_nodup (d : List (PyStr × Bytes)) (n : PyStr)
    (h : (keys d).Nodup) : (keys (dirRemove d n)).Nodup := by
  have hsub : List.Sublist (keys (dirRemove d n)) (keys d) :=
    (List.filter_sublist d).map Prod.fst
  exact List.Nodup.sublist hsub h

theorem not_mem_keys_dirRemove (d : List (PyStr × Bytes)) (n : PyStr) :
    n ∉ keys (dirRemove d n) := by
  intro hmem
  simp only [keys, dirRemove, List.mem_map] at hmem
  obtain ⟨p, hp, hpn⟩ := hmem
  rw [List.mem_filter] at hp
  have := hp.2
  simp [hpn] at this

theorem dirRemove_not_mem (d : List (PyStr × Bytes)) (n : PyStr)
    (h : n ∉ keys d) : dirRemove d n = d := by
  rw [dirRemove, List.filter_eq_self]
  intro a ha
  simp only [decide_eq_true_eq]
  intro heq
  exact h (heq ▸ List.mem_map_of_mem Prod.fst ha)

theorem dirRemove_length (d : List (PyStr × Bytes)) (n : PyStr)
    (h : (keys d).Nodup) (hm : n ∈ keys d) :
    (dirRemove d n).length + 1 = d.length := by
  induction d with
  | nil => simp [keys] at hm
  | cons hd t ih =>
    obtain ⟨m, b⟩ := hd
    simp only [keys, List.map_cons, List.nodup_cons] at h
    simp only [keys, List.map_cons, List.mem_cons] at hm
    rcases hm with rfl | hm2
    · have hdrop : dirRemove ((n, b) :: t) n = dirRemove t n := by
        simp [dirRemove, List.filter_cons]
      rw [hdrop, dirRemove_not_mem t n h.1]
      simp
    · have hmn : m ≠ n := by
        intro hEq
        exact h.1 (hEq ▸ hm2)
      have hkeep : dirRemove ((m, b) :: t) n = (m, b) :: dirRemove t n := by
        simp [dirRemove, List.filter_cons, hmn]
      rw [hkeep]
      have := ih h.2 hm2
      simp only [List.length_cons]
      omega

theorem filter_key_snoc (d : List (PyStr × Bytes)) (n : PyStr) (c : Bytes)
    (h : n ∉ keys d) :
    (d ++ [(n, c)]).filter (fun p => decide (p.1 = n)) = [(n, c)] := by
  rw [List.filter_append]
  have h1 : d.filter (fun p => decide (p.1 = n)) = [] := by
    rw [List.filter_eq_nil_iff]
    intro a ha
    simp only [decide_eq_true_eq]
    intro heq
    exact h (heq ▸ List.mem_map_of_mem Prod.fst ha)
  simp [h1]

/-- Shape of a merge over an existing archive: the extracted directory with
the colliding name removed, then the new member appended at the end. -/
theorem update_some_members (t : TarFile) (path : PyStr) (c : Bytes) :
    (update_master_tar (some t) path c).members
      = dirRemove (extractAll t.members) (basename path)
          ++ [(basename path, c)] := by
  simp only [update_master_tar]
  exact dirInsert_not_mem _ _ _
    (not_mem_keys_dirRemove (extractAll t.members) (basename path))

/-- Whatever the input, the members written by `update_master_tar` have
pairwise distinct names. -/
theorem update_keys_nodup (m : Option TarFile) (path : PyStr) (c : Bytes) :
    (keys (update_master_tar m path c).members).Nodup := by
  cases m with
  | none => simp [update_master_tar, keys]
  | some t =>
    rw [update_some_members]
    have h1 := keys_dirRemove_nodup (extractAll t.members) (basename path)
      (extractAll_nodup t.members)
    have h2 := not_mem_keys_dirRemove (extractAll t.members) (basename path)
    simp only [keys, List.map_append, List.map_cons, List.map_nil]
    rw [List.nodup_append]
    refine ⟨h1, List.nodup_singleton _, ?_⟩
    intro a ha
    simp only [List.mem_singleton]
    intro han
    exact h2 (han ▸ ha)

/-- The merged archive holds exactly one member under the new base name,
and it carries the new content. -/
theorem update_some_filter (t : TarFile) (path : PyStr) (c : Bytes) :
    (update_master_tar (some t) path c).members.filter
        (fun p => decide (p.1 = basename path))
      = [(basename path, c)] := by
  rw [update_some_members]
  exact filter_key_snoc _ _ _
    (not_mem_keys_dirRemove (extractAll t.members) (basename path))

/-! ### Lemmas about the orchestrator -/

theorem mem_addFile_self (fs : List PyStr) (n : PyStr) : n ∈ addFile fs n := by
  rw [addFile]
  by_cases h : n ∈ fs
  · rw [if_pos h]; exact h
  · rw [if_neg h]; simp

theorem mem_addFile_of_mem (fs : List PyStr) (n m : PyStr) (h : m ∈ fs) :
    m ∈ addFile fs n := by
  rw [addFile]
  by_cases hn : n ∈ fs
  · rw [if_pos hn]; exact h
  · rw [if_neg hn]; exact List.mem_append_left _ h

theorem not_mem_delFile_self (fs : List PyStr) (n : PyStr) :
    n ∉ delFile fs n := by
  intro h
  rw [delFile, List.mem_filter] at h
  simp at h

theorem not_mem_delFile_of_not_mem (fs : List PyStr) (n m : PyStr)
    (h : m ∉ fs) : m ∉ delFile fs n := by
  intro hm
  rw [delFile, List.mem_filter] at hm
  exact h hm.1

theorem mem_delFile_of_mem_ne (fs : List PyStr) (n m : PyStr)
    (h : m ∈ fs) (hne : m ≠ n) : m ∈ delFile fs n := by
  rw [delFile, List.mem_filter]
  exact ⟨h, by simpa using hne⟩

theorem tempTarName_ne_masterLocalName (d : PyStr) :
    tempTarName d ≠ masterLocalName d := by
  intro h
  have hl := congrArg List.length h
  simp [tempTarName, masterLocalName] at hl
  omega

/-- `pySplit` never returns the empty list of fragments. -/
theorem pySplit_ne_nil (sep : Char) (s : PyStr) : pySplit sep s ≠ [] := by
  induction s with
  | nil => simp [pySplit]
  | cons c rest ih =>
    simp only [pySplit]
    rcases hr : pySplit sep rest with _ | ⟨h, t⟩
    · simp
    · by_cases hc : c = sep
      · simp [hc]
      · simp [hc]

/-- Splitting a string that does not contain the separator yields the whole
string as the single fragment. -/
theorem pySplit_no_sep (sep : Char) (s : PyStr) (h : sep ∉ s) :
    pySplit sep s = [s] := by
  induction s with
  | nil => rfl
  | cons c rest ih =>
    simp only [List.mem_cons] at h
    push_neg at h
    have hr : pySplit sep rest = [rest] := ih h.2
    simp only [pySplit, hr]
    rw [if_neg (fun hc => h.1 hc.symm)]

/-- A cycle on a path with an unsupported suffix exits with code 1 before
making any remote call or touching any local file. -/
theorem runCycle_bad (d : PyStr) (e : FileEnv) (s : RunState) (p : PyStr)
    (h : suffixOk p = false) : runCycle d e s p = (s, some 1) := by
  rw [runCycle, if_neg (by simp [h])]

/-- Every exit a cycle takes carries code 1. -/
theorem runCycle_code (d : PyStr) (e : FileEnv) (s : RunState) (p : PyStr) :
    (runCycle d e s p).2 = none ∨ (runCycle d e s p).2 = some 1 := by
  rw [runCycle]
  by_cases hsuf : suffixOk p
  · rw [if_pos hsuf]
    rcases e.fetch with b | _ | _ | _
    · by_cases hu : e.uploadOk
      · simp [hu]
      · simp [hu]
    · by_cases hu : e.uploadOk
      · simp [hu]
      · simp [hu]
    · simp
    · simp
  · rw [if_neg hsuf]
    simp

/-- A run whose input list contains a non-blank entry with an unsupported
suffix cannot complete the loop: it exits with code 1. -/
theorem runFiles_bad (d : PyStr) (envs : Nat → FileEnv) :
    ∀ files : List PyStr, ∀ p, p ∈ files → pyStrip p ≠ [] →
      suffixOk (pyStrip p) = false →
      ∀ k s, ∃ s2, runFiles d envs files k s = (s2, some 1) := by
  intro files
  induction files with
  | nil =>
    intro p hp
    simp at hp
  | cons q rest ih =>
    intro p hp hnb hbad k s
    simp only [runFiles]
    by_cases hq : pyStrip q = []
    · rw [if_pos hq]
      have hpr : p ∈ rest := by
        rcases List.mem_cons.mp hp with rfl | h2
        · exact absurd hq hnb
        · exact h2
      exact ih p hpr hnb hbad k s
    · rw [if_neg hq]
      split
      · rename_i s2 code heq
        rcases runCycle_code d (envs k) s (pyStrip q) with h0 | h1
        · rw [heq] at h0
          simp at h0
        · rw [heq] at h1
          simp only [Option.some.injEq] at h1
          exact ⟨s2, by rw [h1]⟩
      · rename_i s2 heq
        have hpr : p ∈ rest := by
          rcases List.mem_cons.mp hp with rfl | h2
          · rw [runCycle_bad d (envs k) s (pyStrip p) hbad] at heq
            simp at heq
          · exact h2
        exact ih p hpr hnb hbad (k + 1) s2

theorem runCycle_eq_found_ok (d : PyStr) (b : Bytes) (s : RunState) (p : PyStr)
    (hp : suffixOk p = true) :
    runCycle d ⟨FetchOutcome.found b, true⟩ s p
      = (⟨delFile (delFile (addFile (addFile s.files (masterLocalName d))
              (tempTarName d)) (masterLocalName d)) (tempTarName d),
          (s.trace ++ [Event.downloadCall]) ++ [Event.uploadCall]⟩, none) := by
  rw [runCycle, if_pos hp]
  rfl

theorem runCycle_eq_notFound_ok (d : PyStr) (s : RunState) (p : PyStr)
    (hp : suffixOk p = true) :
    runCycle d ⟨FetchOutcome.pathNotFound, true⟩ s p
      = (⟨delFile (addFile (addFile s.files (masterLocalName d))
              (tempTarName d)) (tempTarName d),
          (s.trace ++ [Event.downloadCall]) ++ [Event.uploadCall]⟩, none) := by
  rw [runCycle, if_pos hp]
  rfl

theorem runCycle_eq_found_fail (d : PyStr) (b : Bytes) (s : RunState)
    (p : PyStr) (hp : suffixOk p = true) :
    runCycle d ⟨FetchOutcome.found b, false⟩ s p
      = (⟨addFile (addFile s.files (masterLocalName d)) (tempTarName d),
          (s.trace ++ [Event.downloadCall]) ++ [Event.uploadCall]⟩,
         some 1) := by
  rw [runCycle, if_pos hp]
  rfl

theorem runCycle_eq_notFound_fail (d : PyStr) (s : RunState) (p : PyStr)
    (hp : suffixOk p = true) :
    runCycle d ⟨FetchOutcome.pathNotFound, false⟩ s p
      = (⟨addFile (addFile s.files (masterLocalName d)) (tempTarName d),
          (s.trace ++ [Event.downloadCall]) ++ [Event.uploadCall]⟩,
         some 1) := by
  rw [runCycle, if_pos hp]
  rfl

/-! ### Claim theorems -/

/-- Claim C1: merging a new member into an existing archive with uniquely
named members preserves name uniqueness; the result holds exactly one member
under the new base name, carrying the new bytes; and the member count is
unchanged when the name collides with an existing member (replace) and grows
by one otherwise (append). -/
theorem update_master_tar_C1 (t : TarFile) (path : PyStr) (c : Bytes)
    (h : (keys t.members).Nodup) :
    (keys (update_master_tar (some t) path c).members).Nodup
    ∧ (update_master_tar (some t) path c).members.filter
        (fun q => decide (q.1 = basename path)) = [(basename path, c)]
    ∧ (update_master_tar (some t) path c).members.length
        = (if basename path ∈ keys t.members
            then t.members.length else t.members.length + 1) := by
  refine ⟨update_keys_nodup _ _ _, update_some_filter t path c, ?_⟩
  rw [update_some_members, List.length_append, extractAll_id t.members h]
  by_cases hm : basename path ∈ keys t.members
  · rw [if_pos hm]
    have hlen := dirRemove_length t.members (basename path) h hm
    simp only [List.length_cons, List.length_nil]
    omega
  · rw [if_neg hm, dirRemove_not_mem t.members (basename path) hm]
    simp

/-- Claim C1 witness: the replace branch at a concrete two-member archive
whose member `b.txt` is overwritten. -/
theorem update_master_tar_C1_witness :
    (keys (update_master_tar (some ⟨Compression.gzip,
          [("a.txt".toList, [1]), ("b.txt".toList, [2])]⟩)
        ("p/b.txt".toList) [9]).members).Nodup
    ∧ (update_master_tar (some ⟨Compression.gzip,
          [("a.txt".toList, [1]), ("b.txt".toList, [2])]⟩)
        ("p/b.txt".toList) [9]).members.filter
          (fun q => decide (q.1 = basename ("p/b.txt".toList)))
        = [(basename ("p/b.txt".toList), [9])]
    ∧ (update_master_tar (some ⟨Compression.gzip,
          [("a.txt".toList, [1]), ("b.txt".toList, [2])]⟩)
        ("p/b.txt".toList) [9]).members.length
        = (if basename ("p/b.txt".toList)
              ∈ keys [("a.txt".toList, [1]), ("b.txt".toList, [2])]
            then ([("a.txt".toList, [1]), ("b.txt".toList, [2])]
                    : List (PyStr × Bytes)).length
            else ([("a.txt".toList, [1]), ("b.txt".toList, [2])]
                    : List (PyStr × Bytes)).length + 1) :=
  update_master_tar_C1
    ⟨Compression.gzip, [("a.txt".toList, [1]), ("b.txt".toList, [2])]⟩
    ("p/b.txt".toList) [9] (by decide)

/-- Claim C2, amended: for a file of `fileSize > CHUNK_SIZE` bytes the
session path issues exactly `(fileSize - CHUNK_SIZE - 1) / CHUNK_SIZE`
append calls (one less than `(fileSize - CHUNK_SIZE) / CHUNK_SIZE` when
`fileSize` is an exact multiple of the chunk size, since a remaining chunk
of exactly `CHUNK_SIZE` bytes goes to session-finish, not to append); the
final chunk handed to session-finish is `fileSize` minus the cursor offset
at the finish call, at least 1 byte and at most `CHUNK_SIZE` bytes. -/
theorem upload_C2_amended (fileSize : Nat) (h : CHUNK_SIZE < fileSize) :
    appendCount (uploadEvents fileSize)
        = (fileSize - CHUNK_SIZE - 1) / CHUNK_SIZE
    ∧ ∃ o, (uploadEvents fileSize).filter isFinish
            = [UploadEvent.sessionFinish (fileSize - o) o]
        ∧ 1 ≤ fileSize - o ∧ fileSize - o ≤ CHUNK_SIZE := by
  refine ⟨appendCount_uploadEvents fileSize h, ?_⟩
  obtain ⟨o, h1, h2, h3, h4⟩ := finish_uploadEvents fileSize h
  exact ⟨o, h1, by omega, h4⟩

/-- Claim C2 witness: a file one byte larger than two chunks makes exactly
one append call. -/
theorem upload_C2_witness :
    CHUNK_SIZE < 2 * CHUNK_SIZE + 1
    ∧ (appendCount (uploadEvents (2 * CHUNK_SIZE + 1))
          = (2 * CHUNK_SIZE + 1 - CHUNK_SIZE - 1) / CHUNK_SIZE
      ∧ ∃ o, (uploadEvents (2 * CHUNK_SIZE + 1)).filter isFinish
              = [UploadEvent.sessionFinish (2 * CHUNK_SIZE + 1 - o) o]
          ∧ 1 ≤ 2 * CHUNK_SIZE + 1 - o
          ∧ 2 * CHUNK_SIZE + 1 - o ≤ CHUNK_SIZE) :=
  ⟨by omega, upload_C2_amended (2 * CHUNK_SIZE + 1) (by omega)⟩

/-- Claim C2 counterexample: for a file of exactly two chunks
(`fileSize = 2 * CHUNK_SIZE`) the code makes zero append calls (the
remaining full chunk is sent via session-finish), while the claim's formula
`(fileSize - CHUNK_SIZE) / CHUNK_SIZE` demands one. -/
theorem upload_C2_counterexample :
    appendCount (uploadEvents (2 * CHUNK_SIZE)) = 0
    ∧ (2 * CHUNK_SIZE - CHUNK_SIZE) / CHUNK_SIZE = 1 := by
  have hC := chunkSize_pos
  constructor
  · rw [appendCount_uploadEvents (2 * CHUNK_SIZE) (by omega)]
    exact Nat.div_eq_of_lt (by omega)
  · have h2 : 2 * CHUNK_SIZE - CHUNK_SIZE = CHUNK_SIZE := by omega
    rw [h2, Nat.div_self hC]

/-- Claim C3: the single-shot path is taken exactly for sizes up to
`CHUNK_SIZE`; a file of exactly `CHUNK_SIZE` bytes is one `files_upload`
call, and one byte more opens a session. -/
theorem upload_C3 (fileSize : Nat) :
    (uploadEvents fileSize = [UploadEvent.singleShot fileSize]
        ↔ fileSize ≤ CHUNK_SIZE)
    ∧ uploadEvents CHUNK_SIZE = [UploadEvent.singleShot CHUNK_SIZE]
    ∧ uploadEvents (CHUNK_SIZE + 1)
        = [UploadEvent.sessionStart CHUNK_SIZE,
           UploadEvent.sessionFinish 1 CHUNK_SIZE] := by
  have hC := chunkSize_pos
  refine ⟨⟨?_, ?_⟩, ?_, ?_⟩
  · intro h
    by_contra hgt
    push_neg at hgt
    rw [uploadEvents_large fileSize hgt] at h
    simp at h
  · intro h
    rw [uploadEvents, if_pos h]
  · rw [uploadEvents, if_pos le_rfl]
  · rw [uploadEvents, if_neg (by omega), sessionEvents,
      dif_pos (by omega), if_pos (by omega)]
    have h1 : CHUNK_SIZE + 1 - CHUNK_SIZE = 1 := by omega
    rw [h1]

/-- Claim C4: on the session path the cursor offsets are consistent (each
offset passed with an append or the finish equals the total bytes read from
the stream before that call's chunk) and strictly increasing; session-finish
is called exactly once; and the total bytes consumed — bytes read before the
finish plus the final chunk — equal the file size. -/
theorem upload_C4 (fileSize : Nat) (h : CHUNK_SIZE < fileSize) :
    offsetsOk 0 (uploadEvents fileSize)
    ∧ List.Pairwise (fun a b => a < b) (offsetList (uploadEvents fileSize))
    ∧ (∃ o, (uploadEvents fileSize).filter isFinish
            = [UploadEvent.sessionFinish (fileSize - o) o] ∧ o < fileSize)
    ∧ chunkSum (uploadEvents fileSize) = fileSize := by
  refine ⟨offsetsOk_uploadEvents fileSize h, ?_, ?_,
    chunkSum_uploadEvents fileSize h⟩
  · exact offsetsOk_pairwise (uploadEvents fileSize) 0
      (offsetsOk_uploadEvents fileSize h) (chunks_pos_uploadEvents fileSize h)
  · obtain ⟨o, h1, h2, h3, h4⟩ := finish_uploadEvents fileSize h
    exact ⟨o, h1, h3⟩

/-- Claim C4 witness: the session invariants at a file one byte over the
threshold. -/
theorem upload_C4_witness :
    CHUNK_SIZE < CHUNK_SIZE + 1
    ∧ (offsetsOk 0 (uploadEvents (CHUNK_SIZE + 1))
      ∧ List.Pairwise (fun a b => a < b)
          (offsetList (uploadEvents (CHUNK_SIZE + 1)))
      ∧ (∃ o, (uploadEvents (CHUNK_SIZE + 1)).filter isFinish
              = [UploadEvent.sessionFinish (CHUNK_SIZE + 1 - o) o]
          ∧ o < CHUNK_SIZE + 1)
      ∧ chunkSum (uploadEvents (CHUNK_SIZE + 1)) = CHUNK_SIZE + 1) :=
  ⟨by omega, upload_C4 (CHUNK_SIZE + 1) (by omega)⟩

/-- Claim C5: merging the same (path, content) pair twice in succession
yields an archive holding exactly one member under that base name, with the
latest content, and unique member names overall — whatever the starting
archive (or its absence). -/
theorem update_master_tar_C5 (master : Option TarFile) (path : PyStr)
    (c : Bytes) :
    (update_master_tar (some (update_master_tar master path c))
          path c).members.filter (fun q => decide (q.1 = basename path))
        = [(basename path, c)]
    ∧ (keys (update_master_tar (some (update_master_tar master path c))
          path c).members).Nodup :=
  ⟨update_some_filter _ path c, update_keys_nodup _ path c⟩

/-- Claim C6: with no existing master archive, the merge produces an archive
with exactly one member, named by the new file's base name and carrying its
bytes. -/
theorem update_master_tar_C6 (path : PyStr) (c : Bytes) :
    update_master_tar none path c
      = ⟨Compression.plainNone, [(basename path, c)]⟩ := rfl

/-- Claim C7: the fetch returns the `absent` outcome (`Except.ok none`,
without terminating the run) exactly when the remote store reports
path-not-found; a found object is returned as downloaded; every other
ApiError terminates the run with exit code 1. -/
theorem download_C7 :
    (∀ r, download_from_dropbox r = Except.ok none
        ↔ r = FetchOutcome.pathNotFound)
    ∧ (∀ b, download_from_dropbox (FetchOutcome.found b)
        = Except.ok (some b))
    ∧ download_from_dropbox FetchOutcome.pathOther = Except.error 1
    ∧ download_from_dropbox FetchOutcome.otherApiErr = Except.error 1 := by
  refine ⟨?_, fun b => rfl, rfl, rfl⟩
  intro r
  cases r <;> simp [download_from_dropbox]

/-- Claim C8, amended: in a validated per-file cycle the fetched archive
(when one was downloaded) and the merge output are deleted only when the
upload succeeds; when the upload fails, the process exits with code 1 and
both files are left behind.  (After a not-found fetch the merge output is
still deleted on success, while the empty placeholder file created by the
download remains.) -/
theorem runCycle_C8_amended (d : PyStr) (e : FileEnv) (s : RunState)
    (p : PyStr) (hp : suffixOk p = true) :
    (∀ b, e.fetch = FetchOutcome.found b → e.uploadOk = true →
        (runCycle d e s p).2 = none
        ∧ tempTarName d ∉ (runCycle d e s p).1.files
        ∧ masterLocalName d ∉ (runCycle d e s p).1.files)
    ∧ (e.fetch = FetchOutcome.pathNotFound → e.uploadOk = true →
        (runCycle d e s p).2 = none
        ∧ tempTarName d ∉ (runCycle d e s p).1.files
        ∧ masterLocalName d ∈ (runCycle d e s p).1.files)
    ∧ (∀ b, e.fetch = FetchOutcome.found b → e.uploadOk = false →
        (runCycle d e s p).2 = some 1
        ∧ tempTarName d ∈ (runCycle d e s p).1.files
        ∧ masterLocalName d ∈ (runCycle d e s p).1.files)
    ∧ (e.fetch = FetchOutcome.pathNotFound → e.uploadOk = false →
        (runCycle d e s p).2 = some 1
        ∧ tempTarName d ∈ (runCycle d e s p).1.files
        ∧ masterLocalName d ∈ (runCycle d e s p).1.files) := by
  obtain ⟨f, u⟩ := e
  refine ⟨?_, ?_, ?_, ?_⟩
  · intro b hf hu
    simp only at hf hu
    subst hf
    subst hu
    rw [runCycle_eq_found_ok d b s p hp]
    refine ⟨rfl, not_mem_delFile_self _ _, ?_⟩
    exact not_mem_delFile_of_not_mem _ _ _ (not_mem_delFile_self _ _)
  · intro hf hu
    simp only at hf hu
    subst hf
    subst hu
    rw [runCycle_eq_notFound_ok d s p hp]
    refine ⟨rfl, not_mem_delFile_self _ _, ?_⟩
    exact mem_delFile_of_mem_ne _ _ _
      (mem_addFile_of_mem _ _ _ (mem_addFile_self _ _))
      (fun hEq => tempTarName_ne_masterLocalName d hEq.symm)
  · intro b hf hu
    simp only at hf hu
    subst hf
    subst hu
    rw [runCycle_eq_found_fail d b s p hp]
    exact ⟨rfl, mem_addFile_self _ _,
      mem_addFile_of_mem _ _ _ (mem_addFile_self _ _)⟩
  · intro hf hu
    simp only at hf hu
    subst hf
    subst hu
    rw [runCycle_eq_notFound_fail d s p hp]
    exact ⟨rfl, mem_addFile_self _ _,
      mem_addFile_of_mem _ _ _ (mem_addFile_self _ _)⟩

/-- Claim C8 witness: a successful cycle over a downloaded master deletes
both the fetched archive and the merge output. -/
theorem runCycle_C8_witness :
    (runCycle ("/m.tar".toList) ⟨FetchOutcome.found [7], true⟩ ⟨[], []⟩
        ("a.tar".toList)).2 = none
    ∧ tempTarName ("/m.tar".toList)
        ∉ (runCycle ("/m.tar".toList) ⟨FetchOutcome.found [7], true⟩
            ⟨[], []⟩ ("a.tar".toList)).1.files
    ∧ masterLocalName ("/m.tar".toList)
        ∉ (runCycle ("/m.tar".toList) ⟨FetchOutcome.found [7], true⟩
            ⟨[], []⟩ ("a.tar".toList)).1.files :=
  (runCycle_C8_amended ("/m.tar".toList) ⟨FetchOutcome.found [7], true⟩
      ⟨[], []⟩ ("a.tar".toList) (by decide)).1 [7] rfl rfl

/-- Claim C8 counterexample: when the upload fails the process exits with
code 1 while both the downloaded master archive and the merge output are
still present — they are not deleted, contradicting the claimed
cleanup-regardless-of-upload-outcome. -/
theorem runCycle_C8_counterexample :
    (runCycle ("/m.tar".toList) ⟨FetchOutcome.found [], false⟩ ⟨[], []⟩
        ("a.tar".toList)).2 = some 1
    ∧ masterLocalName ("/m.tar".toList)
        ∈ (runCycle ("/m.tar".toList) ⟨FetchOutcome.found [], false⟩
            ⟨[], []⟩ ("a.tar".toList)).1.files
    ∧ tempTarName ("/m.tar".toList)
        ∈ (runCycle ("/m.tar".toList) ⟨FetchOutcome.found [], false⟩
            ⟨[], []⟩ ("a.tar".toList)).1.files := by
  refine ⟨by decide, by decide, by decide⟩

/-- Claim C9, amended: a run whose input list contains a non-blank entry
with an unsupported suffix always exits with a non-zero code, and the
offending entry's own cycle is aborted at validation — it makes no remote
call and neither creates nor deletes any local file (the cycle leaves any
state unchanged and exits 1).  Remote calls of earlier valid entries and
the initial authentication call do occur before the run terminates. -/
theorem runMain_C9_amended (tok auth : Bool) (d changed : PyStr)
    (envs : Nat → FileEnv) (p : PyStr)
    (hmem : p ∈ pySplit ',' changed) (hnb : pyStrip p ≠ [])
    (hbad : suffixOk (pyStrip p) = false) :
    (runMain tok auth d changed envs).2 ≠ 0
    ∧ (∀ e s, runCycle d e s (pyStrip p) = (s, some 1)) := by
  constructor
  · rw [runMain]
    by_cases ht : tok = false
    · rw [if_pos ht]
      simp
    · rw [if_neg ht]
      by_cases ha : auth = false
      · rw [if_pos ha]
        simp
      · rw [if_neg ha]
        obtain ⟨s2, hs2⟩ := runFiles_bad d envs (pySplit ',' changed) p
          hmem hnb hbad 0 ⟨[], [Event.authCall]⟩
        rw [hs2]
        simp
  · intro e s
    exact runCycle_bad d e s (pyStrip p) hbad

/-- Claim C9 witness: a single-entry run on `b.zip` exits non-zero, and its
cycle exits 1 leaving the state untouched. -/
theorem runMain_C9_witness :
    (runMain true true ("/m.tar".toList) ("b.zip".toList)
        (fun _ => ⟨FetchOutcome.found [], true⟩)).2 ≠ 0
    ∧ runCycle ("/m.tar".toList) ⟨FetchOutcome.pathNotFound, true⟩
        ⟨["x.tar".toList], []⟩ (pyStrip ("b.zip".toList))
        = (⟨["x.tar".toList], []⟩, some 1) :=
  ⟨(runMain_C9_amended true true ("/m.tar".toList) ("b.zip".toList)
      (fun _ => ⟨FetchOutcome.found [], true⟩) ("b.zip".toList)
      (by decide) (by decide) (by decide)).1,
   (runMain_C9_amended true true ("/m.tar".toList) ("b.zip".toList)
      (fun _ => ⟨FetchOutcome.found [], true⟩) ("b.zip".toList)
      (by decide) (by decide) (by decide)).2
     ⟨FetchOutcome.pathNotFound, true⟩ ⟨["x.tar".toList], []⟩⟩

/-- Claim C9 counterexample: in the run `"a.tar,b.zip"` the unsupported
suffix does abort the run (exit 1), but remote calls — the authentication
check, the download and the upload for `a.tar` — have already been made,
contradicting the claim that the run terminates before any remote call. -/
theorem runMain_C9_counterexample :
    (runMain true true ("/m.tar".toList) ("a.tar,b.zip".toList)
        (fun _ => ⟨FetchOutcome.found [], true⟩)).2 = 1
    ∧ Event.authCall ∈ (runMain true true ("/m.tar".toList)
        ("a.tar,b.zip".toList)
        (fun _ => ⟨FetchOutcome.found [], true⟩)).1.trace
    ∧ Event.downloadCall ∈ (runMain true true ("/m.tar".toList)
        ("a.tar,b.zip".toList)
        (fun _ => ⟨FetchOutcome.found [], true⟩)).1.trace
    ∧ Event.uploadCall ∈ (runMain true true ("/m.tar".toList)
        ("a.tar,b.zip".toList)
        (fun _ => ⟨FetchOutcome.found [], true⟩)).1.trace := by
  refine ⟨by decide, by decide, by decide, by decide⟩

/-- Claim C10: the merge reads the existing archive with transparent
decompression — its result does not depend on the input's compression
variant — and always writes the output uncompressed, so a gzip-compressed
master does not stay gzip-compressed through a merge. -/
theorem update_master_tar_C10 (comp1 comp2 : Compression)
    (ms : List (PyStr × Bytes)) (path : PyStr) (c : Bytes) :
    update_master_tar (some ⟨comp1, ms⟩) path c
        = update_master_tar (some ⟨comp2, ms⟩) path c
    ∧ (update_master_tar (some ⟨comp1, ms⟩) path c).compression
        = Compression.plainNone
    ∧ (update_master_tar (some ⟨Compression.gzip, ms⟩) path c).compression
        ≠ Compression.gzip := by
  refine ⟨rfl, rfl, ?_⟩
  intro h
  simp [update_master_tar] at h
